import Mathlib

/-
Verification of the model-selection / fallback strategy and the response
extraction helpers of `src/main_chat.py`.

Strings are modelled as Lean `String` (a list of unicode characters); the
character-class predicates (`\w`, `\s`, `\d`, lower-casing) follow Python's
semantics restricted to ASCII, which covers every marker string and every
input appearing in the code and the claims.
-/

namespace MainChat

/-- `leadsWith p s` is true when the character list `s` starts with `p`. -/
def leadsWith : List Char → List Char → Bool
  | [], _ => true
  | _ :: _, [] => false
  | a :: as, b :: bs => a = b && leadsWith as bs

/-- `hasSub needle hay` is true when `needle` occurs as a contiguous
substring of `hay` (Python's `needle in hay`). -/
def hasSub (needle : List Char) : List Char → Bool
  | [] => leadsWith needle []
  | c :: t => leadsWith needle (c :: t) || hasSub needle t

/-- ASCII lower-casing of one character (Python `str.lower` on ASCII). -/
def lowerChar (c : Char) : Char :=
  if 'A' ≤ c ∧ c ≤ 'Z' then Char.ofNat (c.toNat + 32) else c

/-- ASCII lower-casing of a string. -/
def lowerStr (s : String) : String :=
  String.mk (s.data.map lowerChar)

/-- Python `str.startswith`: `strStartsWith s p` means `s` starts with `p`. -/
def strStartsWith (s p : String) : Bool :=
  leadsWith p.data s.data

/-- Python `str.endswith`: `strEndsWith s p` means `s` ends with `p`. -/
def strEndsWith (s p : String) : Bool :=
  leadsWith p.data.reverse s.data.reverse

/-- Python `\s` whitespace class, ASCII part. -/
def isSpaceChar (c : Char) : Bool :=
  c = ' ' || c = '\t' || c = '\n' || c = '\x0d' || c = '\x0b' || c = '\x0c'

/-- Python `\w` word-character class, ASCII part. -/
def isWordChar (c : Char) : Bool :=
  ('a' ≤ c && c ≤ 'z') || ('A' ≤ c && c ≤ 'Z') || ('0' ≤ c && c ≤ '9') || c = '_'

/-- Python `\d` digit class, ASCII part. -/
def isDigitChar (c : Char) : Bool :=
  '0' ≤ c && c ≤ '9'

/-- Python `str.strip()`: drop whitespace from both ends. -/
def stripPy (s : String) : String :=
  String.mk (((s.data.dropWhile isSpaceChar).reverse.dropWhile isSpaceChar).reverse)

/- ===================== Model invocation service ===================== -/

/-- The static preference ranking `pref_order` of `generate_text`
(src/main_chat.py lines 73-83). -/
def pref_order : List String :=
  ["gemini-2.5-flash", "gemini-2.5-flash-latest", "gemini-2.5-pro",
   "gemini-2.5-pro-latest", "gemini-1.5-flash", "gemini-1.5-flash-latest",
   "gemini-1.5-pro", "gemini-1.5-pro-latest", "gemini-pro"]

/-- Eligibility for the "-latest" variant of the preferred model name
(src/main_chat.py lines 68-70). -/
def latestEligible (m : String) : Bool :=
  !(strEndsWith m "-latest") &&
    (strStartsWith m "gemini-1.5-" || strStartsWith m "gemini-2.")

/-- The initial candidate segment built from the preferred model name: the
name itself and, when eligible, its "-latest" variant.  An empty (falsy)
name contributes nothing (src/main_chat.py lines 65-71). -/
def initialCands (m : String) : List String :=
  if m = "" then []
  else if latestEligible m then [m, m ++ "-latest"] else [m]

/-- One pass of the `for n in ...: if p n and n not in candidates:
candidates.append(n)` pattern used twice by `generate_text`
(src/main_chat.py lines 84-89). -/
def addIfNew (p : String → Prop) [DecidablePred p] :
    List String → List String → List String
  | acc, [] => acc
  | acc, n :: ns =>
    if p n ∧ n ∉ acc then addIfNew p (acc ++ [n]) ns else addIfNew p acc ns

/-- The full ordered candidate list of `generate_text`
(src/main_chat.py lines 65-89). -/
def buildCandidates (model_name : String) (available : List String) : List String :=
  addIfNew (fun _ => True)
    (addIfNew (fun n => n ∈ available) (initialCands model_name) pref_order)
    available

/-- The transient-and-retryable-by-fallback marker substrings
(src/main_chat.py lines 100-105). -/
def transient_markers : List String :=
  ["404", "not found", "is not supported", "invalid argument"]

/-- Transient classification of an error text: lower-case it and look for
any marker substring (src/main_chat.py lines 98-105). -/
def isTransientMsg (e : String) : Bool :=
  transient_markers.any (fun m => hasSub m.data (lowerStr e).data)

/-- Outcome of one `generate_text` invocation: a returned text, an
immediately re-raised non-transient error, or the terminal
`RuntimeError` carrying (attempted, available, last transient error)
(src/main_chat.py lines 91-111). -/
inductive GenOutcome where
  | ok (text : String)
  | raised (err : String)
  | noUsable (attempted : List String) (available : List String)
      (lastErr : Option String)
  deriving DecidableEq

/-- Trace of one invocation: its outcome, the final value of the `tried`
list, and the candidates on which a generation call was actually issued. -/
structure RunTrace where
  outcome : GenOutcome
  tried : List String
  calls : List String
  deriving DecidableEq

/-- The fallback loop of `generate_text` (src/main_chat.py lines 91-111).
`behavior` abstracts the remote generation call for each model name: it
either returns text or raises an error with the given message.  On an
error the candidate is appended to `tried` before classification, exactly
as in the source. -/
def runCandidates (behavior : String → Except String String)
    (available : List String) :
    List String → List String → Option String → RunTrace
  | [], tried, lastErr =>
    ⟨GenOutcome.noUsable tried available lastErr, tried, []⟩
  | name :: rest, tried, lastErr =>
    match behavior name with
    | Except.ok t => ⟨GenOutcome.ok t, tried, [name]⟩
    | Except.error e =>
      if isTransientMsg e then
        let r := runCandidates behavior available rest (tried ++ [name]) (some e)
        ⟨r.outcome, r.tried, name :: r.calls⟩
      else ⟨GenOutcome.raised e, tried ++ [name], [name]⟩

/-- Run the fallback loop on an explicit candidate list with the initial
state of `generate_text` (`tried = []`, `last_err = None`). -/
def invokeCandidates (behavior : String → Except String String)
    (available cands : List String) : RunTrace :=
  runCandidates behavior available cands [] none

/-- `generate_text` after credential checking: build the candidate list and
run the fallback loop (src/main_chat.py lines 50-111). -/
def generate_text (behavior : String → Except String String)
    (model_name : String) (available : List String) : RunTrace :=
  invokeCandidates behavior available (buildCandidates model_name available)

/-- The availability list returned by `list_available_text_models`: only
truthy (non-empty) names are ever appended
(src/main_chat.py lines 42-44). -/
def availableOf (raw : List String) : List String :=
  raw.filter (fun n => decide (n ≠ ""))

/- ===================== Response extractor ===================== -/

/-- Greedy maximal run of `\w` characters, returning the run and the rest. -/
def takeWordRun : List Char → List Char × List Char
  | [] => ([], [])
  | c :: cs =>
    if isWordChar c then
      let p := takeWordRun cs
      (c :: p.1, p.2)
    else ([], c :: cs)

/-- Shortest split of the input into `body ++ "\n```" ++ after`, the
non-greedy `(.*?)\n``` ` tail of the fence pattern with DOTALL.  Returns
`(body, after)` or `none` when no closing fence exists. -/
def findBody : List Char → Option (List Char × List Char)
  | [] => none
  | c :: cs =>
    if leadsWith ['\n', '`', '`', '`'] (c :: cs) then
      some ([], (c :: cs).drop 4)
    else
      match findBody cs with
      | some p => some (c :: p.1, p.2)
      | none => none

/-- Attempt a match of the fence pattern ```` ```(\w+)?\n(.*?)\n``` ```` at
the head of the input (Python `re` with `re.S`): literal backticks, a
greedy optional word run for the language tag, a newline, then the
shortest body closed by a newline and three backticks.  Returns the tag
(`none` for an absent group 1), the body, and the remaining input. -/
def tryFence (cs : List Char) : Option (Option String × String × List Char) :=
  if leadsWith ['`', '`', '`'] cs then
    let rest := cs.drop 3
    let p := takeWordRun rest
    match p.2 with
    | '\n' :: afterNl =>
      match findBody afterNl with
      | some b =>
        some (if p.1.isEmpty then none else some (String.mk p.1), String.mk b.1, b.2)
      | none => none
    | _ => none
  else none

/-- `re.finditer` over the fence pattern: try a match at each position,
left to right and non-overlapping; the fuel is an upper bound on the
number of scanning steps (each step consumes at least one character). -/
def scanFences : Nat → List Char → List (Option String × String)
  | 0, _ => []
  | _ + 1, [] => []
  | fuel + 1, c :: cs =>
    match tryFence (c :: cs) with
    | some r => (r.1, r.2.1) :: scanFences fuel r.2.2
    | none => scanFences fuel cs

/-- `_extract_code_blocks` (src/main_chat.py lines 375-383): every fenced
block in document order, the language tag as `(m.group(1) or
"").lower().strip()` and the body verbatim. -/
def _extract_code_blocks (text : String) : List (String × String) :=
  (scanFences text.data.length text.data).map
    (fun b => (stripPy (lowerStr (b.1.getD "")), b.2))

/-- The comparison step of `max(blocks, key=lambda m: len(m.group(2) or
""))`: Python's `max` keeps the current element unless a strictly larger
key appears, so ties resolve to the earliest element. -/
def maxStep (best x : Option String × String) : Option String × String :=
  if best.2.length < x.2.length then x else best

/-- Largest-block selection of `_ai_generate_fixed_code`
(src/main_chat.py lines 326-329): `none` on an empty sequence, otherwise
the longest-bodied block, earliest on ties. -/
def pickLargest : List (Option String × String) → Option (Option String × String)
  | [] => none
  | b :: bs => some (bs.foldl maxStep b)

/- ===================== Language guessing ===================== -/

/-- Match of `\s*class\s+\w+` at the given position (the body of the
`re.M` pattern `^\s*class\s+\w+`). -/
def matchClassAt (cs : List Char) : Bool :=
  let r := cs.dropWhile isSpaceChar
  if leadsWith ['c', 'l', 'a', 's', 's'] r then
    match r.drop 5 with
    | [] => false
    | c :: t =>
      isSpaceChar c &&
        (match (c :: t).dropWhile isSpaceChar with
         | [] => false
         | d :: _ => isWordChar d)
  else false

/-- `re.search` of `^\s*class\s+\w+` with `re.M`: a match anchored at the
start of the text or right after any newline. -/
def classAnywhere (cs : List Char) : Bool :=
  matchClassAt cs || classScan cs
where
  classScan : List Char → Bool
    | [] => false
    | c :: t => (c = '\n' && matchClassAt t) || classScan t

/-- `\s+` at the head: requires at least one whitespace character and
consumes the maximal run. -/
def skipWsPlus : List Char → Option (List Char)
  | [] => none
  | c :: cs =>
    if isSpaceChar c then some ((c :: cs).dropWhile isSpaceChar) else none

/-- `anyPos f cs` is true when `f` matches at some position of `cs`
(unanchored `re.search`). -/
def anyPos (f : List Char → Bool) : List Char → Bool
  | [] => f []
  | c :: cs => f (c :: cs) || anyPos f cs

/-- Match of `public\s+class\s+\w+` at the given position. -/
def matchJavaAt (cs : List Char) : Bool :=
  if leadsWith ['p', 'u', 'b', 'l', 'i', 'c'] cs then
    match skipWsPlus (cs.drop 6) with
    | some r =>
      if leadsWith ['c', 'l', 'a', 's', 's'] r then
        match skipWsPlus (r.drop 5) with
        | some r2 =>
          match r2 with
          | d :: _ => isWordChar d
          | [] => false
        | none => false
      else false
    | none => false
  else false

/-- Match of `function\s+\w+\s*\(` at the given position. -/
def matchFunAt (cs : List Char) : Bool :=
  if leadsWith ['f', 'u', 'n', 'c', 't', 'i', 'o', 'n'] cs then
    match skipWsPlus (cs.drop 8) with
    | some r =>
      match r with
      | d :: _ =>
        isWordChar d &&
          (match (r.dropWhile isWordChar).dropWhile isSpaceChar with
           | '(' :: _ => true
           | _ => false)
      | [] => false
    | none => false
  else false

/-- Match of `=>` at the given position. -/
def matchArrowAt : List Char → Bool
  | '=' :: '>' :: _ => true
  | _ => false

/-- `_guess_language_simple` (src/main_chat.py lines 244-257): heuristic
language detection by substring and small regex searches on the stripped
code text. -/
def _guess_language_simple (code_text : String) : String :=
  let s := (stripPy code_text).data
  if (hasSub "def ".data s || hasSub "import ".data s || classAnywhere s) &&
      !(hasSub "#include".data s) then "python"
  else if hasSub "#include".data s then "c"
  else if anyPos matchJavaAt s then "java"
  else if anyPos (fun t => matchFunAt t || matchArrowAt t) s &&
      hasSub ";".data s then "javascript"
  else ""

/-- The extraction step of `_ai_generate_fixed_code`
(src/main_chat.py lines 324-334) as a function of the model output and
the original code: pick the largest fenced block of the output, its tag
as `(group(1) or "").strip()`; with no block, fall back to the original
code and a guessed language. -/
def aiFixedExtract (out code_text : String) : String × String :=
  match pickLargest (scanFences out.data.length out.data) with
  | some best => (stripPy (best.1.getD ""), best.2)
  | none => (_guess_language_simple code_text, code_text)

/- ===================== Numbered-line extraction ===================== -/

/-- Python `str.splitlines` restricted to the ASCII line boundaries
`\r\n`, `\n`, `\r`: no trailing empty line, and an empty string yields no
lines.  The accumulator holds the current line reversed. -/
def splitAux : List Char → List Char → List (List Char)
  | acc, [] => if acc.isEmpty then [] else [acc.reverse]
  | acc, '\x0d' :: '\n' :: cs => acc.reverse :: splitAux [] cs
  | acc, '\n' :: cs => acc.reverse :: splitAux [] cs
  | acc, '\x0d' :: cs => acc.reverse :: splitAux [] cs
  | acc, c :: cs => splitAux (c :: acc) cs

/-- Python `str.splitlines` on a string. -/
def splitlinesPy (s : String) : List String :=
  (splitAux [] s.data).map String.mk

/-- One line of `_ai_generate_test_lines` post-processing
(src/main_chat.py lines 284-286): `re.match(r"^\s*\d+\.?\s*(.*)$", ln)`
strips the numeric prefix and the stripped group is kept; a non-matching
line is kept as is. -/
def stripNumLine (ln : String) : String :=
  let r := ln.data.dropWhile isSpaceChar
  match r with
  | d :: _ =>
    if isDigitChar d then
      let r2 := r.dropWhile isDigitChar
      let r3 := match r2 with
        | '.' :: t => t
        | _ => r2
      stripPy (String.mk (r3.dropWhile isSpaceChar))
    else ln
  | [] => ln

/-- The collection loop of `_ai_generate_test_lines`
(src/main_chat.py lines 283-288): process lines in order, stopping once
four entries have been collected. -/
def collectClean : List String → List String → List String
  | cleaned, [] => cleaned
  | cleaned, ln :: rest =>
    let cleaned2 := cleaned ++ [stripNumLine ln]
    if cleaned2.length = 4 then cleaned2 else collectClean cleaned2 rest

/-- The placeholder used to pad missing test lines
(src/main_chat.py line 291). -/
def placeholderLine : String := "<bổ sung test case>"

/-- Padding-and-truncation to exactly four entries: the `while len < 4`
padding loop and the final `cleaned[:4]`
(src/main_chat.py lines 290-292). -/
def padFour (l : List String) : List String :=
  (l ++ List.replicate (4 - l.length) placeholderLine).take 4

/-- The full post-processing of `_ai_generate_test_lines` applied to the
model output (src/main_chat.py lines 280-292): split into lines, strip,
drop blank lines, strip numeric prefixes, then fix the length at four. -/
def testLinesFromOutput (out : String) : List String :=
  padFour (collectClean []
    (((splitlinesPy out).filter (fun ln => !(stripPy ln).data.isEmpty)).map stripPy))

/- ===================== Path guard ===================== -/

/-- The path guard shared by `/promptify`, `/fixcode` and `/testify`
(src/main_chat.py lines 564-566, 597-599, 629-631): the file is read if
and only if its absolute path starts with the working directory string
and it is a regular file.  `isFile` abstracts `os.path.isfile`. -/
def readGuardPasses (cwd abs_fp : String) (isFile : Bool) : Bool :=
  strStartsWith abs_fp cwd && isFile

/-- Modelled from the spec: "the path resolves to a file inside the
current working directory" — the file's absolute path lies under the
directory `cwd`, i.e. continues with a path separator after it.  The
repository has no definition of "inside"; this renders the spec's words
for absolute, normalized POSIX paths. -/
def insideWorkingDir (cwd abs_fp : String) : Bool :=
  strStartsWith abs_fp (cwd ++ "/")

/- ===================== Lemmas: candidate construction ===================== -/

theorem addIfNew_decomp (p : String → Prop) [DecidablePred p] :
    ∀ (ns acc : List String), ∃ l, addIfNew p acc ns = acc ++ l ∧
      l.Sublist ns ∧ ∀ x, x ∈ l ↔ x ∈ ns ∧ p x ∧ x ∉ acc := by
  intro ns
  induction ns with
  | nil =>
    intro acc
    exact ⟨[], by simp [addIfNew]⟩
  | cons n rest ih =>
    intro acc
    by_cases h : p n ∧ n ∉ acc
    · obtain ⟨l, hl, hs, hm⟩ := ih (acc ++ [n])
      refine ⟨n :: l, ?_, List.Sublist.cons₂ n hs, ?_⟩
      · rw [addIfNew, if_pos h, hl]
        simp
      · intro x
        constructor
        · intro hx
          rcases List.mem_cons.mp hx with rfl | hx
          · exact ⟨List.mem_cons_self x rest, h.1, h.2⟩
          · obtain ⟨hr, hp, hna⟩ := (hm x).mp hx
            refine ⟨List.mem_cons_of_mem n hr, hp, fun hc => hna ?_⟩
            exact List.mem_append_left [n] hc
        · rintro ⟨hx, hp, hna⟩
          by_cases hxn : x = n
          · exact hxn ▸ List.mem_cons_self n l
          · rcases List.mem_cons.mp hx with hx | hx
            · exact absurd hx hxn
            · refine List.mem_cons_of_mem n ((hm x).mpr ⟨hx, hp, ?_⟩)
              intro hc
              rcases List.mem_append.mp hc with hc | hc
              · exact hna hc
              · exact hxn (List.mem_singleton.mp hc)
    · obtain ⟨l, hl, hs, hm⟩ := ih acc
      refine ⟨l, ?_, List.Sublist.cons n hs, ?_⟩
      · rw [addIfNew, if_neg h, hl]
      · intro x
        constructor
        · intro hx
          obtain ⟨hr, hp, hna⟩ := (hm x).mp hx
          exact ⟨List.mem_cons_of_mem n hr, hp, hna⟩
        · rintro ⟨hx, hp, hna⟩
          rcases List.mem_cons.mp hx with hx | hx
          · exact absurd ⟨hx ▸ hp, hx ▸ hna⟩ h
          · exact (hm x).mpr ⟨hx, hp, hna⟩

theorem addIfNew_nodup (p : String → Prop) [DecidablePred p] :
    ∀ (ns acc : List String), acc.Nodup → (addIfNew p acc ns).Nodup := by
  intro ns
  induction ns with
  | nil => intro acc h; simpa [addIfNew] using h
  | cons n rest ih =>
    intro acc h
    by_cases hc : p n ∧ n ∉ acc
    · rw [addIfNew, if_pos hc]
      refine ih (acc ++ [n]) ?_
      simp [List.nodup_append, h, hc.2]
    · rw [addIfNew, if_neg hc]
      exact ih acc h

theorem addIfNew_filter (p : String → Prop) [DecidablePred p] :
    ∀ (ns acc : List String), ns.Nodup →
      addIfNew p acc ns = acc ++ ns.filter (fun n => decide (p n ∧ n ∉ acc)) := by
  intro ns
  induction ns with
  | nil => intro acc _; simp [addIfNew]
  | cons n rest ih =>
    intro acc hnd
    have hn : n ∉ rest := (List.nodup_cons.mp hnd).1
    have hrest : rest.Nodup := (List.nodup_cons.mp hnd).2
    by_cases h : p n ∧ n ∉ acc
    · rw [addIfNew, if_pos h, ih (acc ++ [n]) hrest]
      have hfe : rest.filter (fun x => decide (p x ∧ x ∉ acc ++ [n])) =
          rest.filter (fun x => decide (p x ∧ x ∉ acc)) := by
        apply List.filter_congr
        intro x hx
        have hxn : x ≠ n := fun hc => hn (hc ▸ hx)
        simp [List.mem_append, hxn]
      rw [hfe, List.filter_cons, if_pos (by simpa using h)]
      simp
    · rw [addIfNew, if_neg h, ih acc hrest, List.filter_cons,
        if_neg (by simpa using h)]

theorem self_ne_append_latest (m : String) : m ≠ m ++ "-latest" := by
  intro h
  have hlen := congrArg String.length h
  rw [String.length_append] at hlen
  have h7 : ("-latest" : String).length = 7 := rfl
  omega

theorem initialCands_nodup (m : String) : (initialCands m).Nodup := by
  unfold initialCands
  by_cases h : m = ""
  · simp [h]
  · rw [if_neg h]
    by_cases he : latestEligible m = true
    · simp [he, self_ne_append_latest m]
    · simp [he]

theorem initialCands_head (m : String) (h : m ≠ "") :
    ∃ t, initialCands m = m :: t := by
  unfold initialCands
  rw [if_neg h]
  by_cases he : latestEligible m = true
  · exact ⟨[m ++ "-latest"], by simp [he]⟩
  · exact ⟨[], by simp [he]⟩

/- ===================== Lemmas: fallback loop ===================== -/

theorem runCandidates_skip_transient
    (behavior : String → Except String String) (av : List String) :
    ∀ (pre : List String),
      (∀ n ∈ pre, ∃ e, behavior n = Except.error e ∧ isTransientMsg e = true) →
      ∀ (rest tried : List String) (le : Option String),
        ∃ le2, runCandidates behavior av (pre ++ rest) tried le =
          ⟨(runCandidates behavior av rest (tried ++ pre) le2).outcome,
           (runCandidates behavior av rest (tried ++ pre) le2).tried,
           pre ++ (runCandidates behavior av rest (tried ++ pre) le2).calls⟩ := by
  intro pre
  induction pre with
  | nil =>
    intro _ rest tried le
    exact ⟨le, by simp⟩
  | cons n pre ih =>
    intro hpre rest tried le
    obtain ⟨e, he, ht⟩ := hpre n (List.mem_cons_self n pre)
    have hpre2 : ∀ x ∈ pre, ∃ e, behavior x = Except.error e ∧ isTransientMsg e = true :=
      fun x hx => hpre x (List.mem_cons_of_mem n hx)
    obtain ⟨le2, h2⟩ := ih hpre2 rest (tried ++ [n]) (some e)
    refine ⟨le2, ?_⟩
    rw [List.cons_append, runCandidates]
    simp only [he, ht, if_true, h2]
    simp [List.append_assoc]

theorem runCandidates_all_transient
    (behavior : String → Except String String) (av : List String) :
    ∀ (cands : List String), cands ≠ [] →
      (∀ n ∈ cands, ∃ e, behavior n = Except.error e ∧ isTransientMsg e = true) →
      ∀ (tried : List String) (le : Option String),
        ∃ last e, cands.getLast? = some last ∧ behavior last = Except.error e ∧
          runCandidates behavior av cands tried le =
            ⟨GenOutcome.noUsable (tried ++ cands) av (some e), tried ++ cands, cands⟩ := by
  intro cands
  induction cands with
  | nil => intro h; exact absurd rfl h
  | cons n rest ih =>
    intro _ hall tried le
    obtain ⟨e, he, ht⟩ := hall n (List.mem_cons_self n rest)
    cases rest with
    | nil =>
      refine ⟨n, e, rfl, he, ?_⟩
      rw [runCandidates]
      simp [he, ht, runCandidates]
    | cons m rest2 =>
      have hall2 : ∀ x ∈ m :: rest2,
          ∃ e, behavior x = Except.error e ∧ isTransientMsg e = true :=
        fun x hx => hall x (List.mem_cons_of_mem n hx)
      obtain ⟨last, e2, hlast, he2, hrun⟩ :=
        ih (by simp) hall2 (tried ++ [n]) (some e)
      refine ⟨last, e2, ?_, he2, ?_⟩
      · rw [List.getLast?_cons_cons]
        exact hlast
      · rw [runCandidates]
        simp only [he, ht, if_true, hrun]
        simp

theorem runCandidates_calls_sub
    (behavior : String → Except String String) (av : List String) :
    ∀ (cands tried : List String) (le : Option String),
      (runCandidates behavior av cands tried le).calls ⊆ cands := by
  intro cands
  induction cands with
  | nil => intro tried le; simp [runCandidates]
  | cons n rest ih =>
    intro tried le
    rw [runCandidates]
    cases hb : behavior n with
    | ok t => simp
    | error e =>
      by_cases ht : isTransientMsg e = true
      · simp only [ht, if_true]
        intro x hx
        rcases List.mem_cons.mp hx with rfl | hx
        · exact List.mem_cons_self x rest
        · exact List.mem_cons_of_mem n (ih (tried ++ [n]) (some e) hx)
      · simp [ht]

/- ===================== Lemmas: largest block ===================== -/

theorem foldMax_spec :
    ∀ (bs : List (Option String × String)) (best : Option String × String),
      ∃ l1 l2, best :: bs = l1 ++ (bs.foldl maxStep best) :: l2 ∧
        (∀ x ∈ l1, x.2.length < (bs.foldl maxStep best).2.length) ∧
        (∀ x ∈ best :: bs, x.2.length ≤ (bs.foldl maxStep best).2.length) := by
  intro bs
  induction bs with
  | nil =>
    intro best
    exact ⟨[], [], by simp, by simp, by simp⟩
  | cons x xs ih =>
    intro best
    rw [List.foldl_cons]
    by_cases h : best.2.length < x.2.length
    · have hstep : maxStep best x = x := by simp [maxStep, h]
      rw [hstep]
      obtain ⟨l1, l2, hdec, hlt, hle⟩ := ih x
      refine ⟨best :: l1, l2, ?_, ?_, ?_⟩
      · rw [List.cons_append, ← hdec]
      · intro y hy
        rcases List.mem_cons.mp hy with rfl | hy
        · exact Nat.lt_of_lt_of_le h (hle x (List.mem_cons_self x xs))
        · exact hlt y hy
      · intro y hy
        rcases List.mem_cons.mp hy with rfl | hy
        · exact Nat.le_of_lt (Nat.lt_of_lt_of_le h (hle x (List.mem_cons_self x xs)))
        · exact hle y hy
    · have hstep : maxStep best x = best := by simp [maxStep, h]
      rw [hstep]
      obtain ⟨l1, l2, hdec, hlt, hle⟩ := ih best
      cases l1 with
      | nil =>
        simp only [List.nil_append] at hdec
        injection hdec with hb hxs
        refine ⟨[], x :: xs, ?_, by simp, ?_⟩
        · simp [← hb]
        · intro y hy
          rcases List.mem_cons.mp hy with rfl | hy
          · exact hle y (List.mem_cons_self y xs)
          · rcases List.mem_cons.mp hy with rfl | hy
            · rw [← hb]
              exact Nat.le_of_not_lt h
            · exact hle y (List.mem_cons_of_mem best hy)
      | cons b0 l1t =>
        rw [List.cons_append] at hdec
        injection hdec with hb hxs
        have hbest_lt : best.2.length < (xs.foldl maxStep best).2.length := by
          have hb0 := hlt b0 (List.mem_cons_self b0 l1t)
          rwa [← hb] at hb0
        refine ⟨best :: x :: l1t, l2, ?_, ?_, ?_⟩
        · rw [List.cons_append, List.cons_append]
          exact congrArg (fun l => best :: x :: l) hxs
        · intro y hy
          rcases List.mem_cons.mp hy with rfl | hy
          · exact hbest_lt
          · rcases List.mem_cons.mp hy with rfl | hy
            · exact Nat.lt_of_le_of_lt (Nat.le_of_not_lt h) hbest_lt
            · exact hlt y (List.mem_cons_of_mem b0 hy)
        · intro y hy
          rcases List.mem_cons.mp hy with rfl | hy
          · exact hle y (List.mem_cons_self y xs)
          · rcases List.mem_cons.mp hy with rfl | hy
            · exact Nat.le_of_lt (Nat.lt_of_le_of_lt (Nat.le_of_not_lt h) hbest_lt)
            · exact hle y (List.mem_cons_of_mem best hy)

theorem padFour_length (l : List String) : (padFour l).length = 4 := by
  simp only [padFour, List.length_take, List.length_append, List.length_replicate]
  omega

/-- Concrete generation behavior used by the witnesses: one candidate
failing with a transient-marker error, one succeeding, any other failing
with a non-transient error. -/
def exBehavior (n : String) : Except String String :=
  if n = "m1" then Except.error "Err 404: model m1 Not Found"
  else if n = "m2" then Except.ok "hi"
  else Except.error "permission denied"

/- ===================== Claims ===================== -/

/-- C1: for any candidate list whose first K entries fail with
transient-marker errors and whose (K+1)-th entry succeeds, `generate_text`
returns that candidate's generated text, the attempted list holds exactly
those K failing candidates, all preceding the successful one in original
order, and generation is invoked on no candidate after the successful one
(at most one successful call per invocation). -/
theorem generate_fallback_success (behavior : String → Except String String)
    (model_name : String) (available pre post : List String) (c t : String)
    (hcands : buildCandidates model_name available = pre ++ c :: post)
    (hpre : ∀ n ∈ pre, ∃ e, behavior n = Except.error e ∧ isTransientMsg e = true)
    (hc : behavior c = Except.ok t) :
    (generate_text behavior model_name available).outcome = GenOutcome.ok t ∧
    (generate_text behavior model_name available).tried = pre ∧
    (generate_text behavior model_name available).calls = pre ++ [c] := by
  simp only [generate_text, invokeCandidates, hcands]
  obtain ⟨le2, hrun⟩ :=
    runCandidates_skip_transient behavior available pre hpre (c :: post) [] none
  rw [hrun]
  simp [runCandidates, hc]

theorem generate_fallback_success_witness :
    buildCandidates "m1" ["m2"] = ["m1"] ++ "m2" :: [] ∧
    (∀ n ∈ (["m1"] : List String),
      ∃ e, exBehavior n = Except.error e ∧ isTransientMsg e = true) ∧
    exBehavior "m2" = Except.ok "hi" ∧
    (generate_text exBehavior "m1" ["m2"]).outcome = GenOutcome.ok "hi" ∧
    (generate_text exBehavior "m1" ["m2"]).tried = ["m1"] ∧
    (generate_text exBehavior "m1" ["m2"]).calls = ["m1"] ++ ["m2"] := by
  have hpre : ∀ n ∈ (["m1"] : List String),
      ∃ e, exBehavior n = Except.error e ∧ isTransientMsg e = true := by
    intro n hn
    rcases List.mem_singleton.mp hn with rfl
    exact ⟨"Err 404: model m1 Not Found", rfl, by decide⟩
  have h := generate_fallback_success exBehavior "m1" ["m2"] ["m1"] [] "m2" "hi"
    (by decide) hpre rfl
  exact ⟨by decide, hpre, rfl, h.1, h.2.1, h.2.2⟩

/-- C2: when every candidate fails with a transient-marker error,
`generate_text` ends in the terminal no-usable-model failure carrying the
full candidate list as attempted, the available list, and the error of the
last candidate tried; every candidate was called. -/
theorem generate_all_transient (behavior : String → Except String String)
    (model_name : String) (available : List String)
    (hne : buildCandidates model_name available ≠ [])
    (hall : ∀ n ∈ buildCandidates model_name available,
      ∃ e, behavior n = Except.error e ∧ isTransientMsg e = true) :
    ∃ last e, (buildCandidates model_name available).getLast? = some last ∧
      behavior last = Except.error e ∧
      generate_text behavior model_name available =
        ⟨GenOutcome.noUsable (buildCandidates model_name available) available (some e),
         buildCandidates model_name available,
         buildCandidates model_name available⟩ := by
  obtain ⟨last, e, h1, h2, h3⟩ :=
    runCandidates_all_transient behavior available _ hne hall [] none
  refine ⟨last, e, h1, h2, ?_⟩
  simpa [generate_text, invokeCandidates] using h3

theorem generate_all_transient_witness :
    buildCandidates "m1" [] ≠ [] ∧
    (∀ n ∈ buildCandidates "m1" [],
      ∃ e, exBehavior n = Except.error e ∧ isTransientMsg e = true) ∧
    (∃ last e, (buildCandidates "m1" []).getLast? = some last ∧
      exBehavior last = Except.error e ∧
      generate_text exBehavior "m1" [] =
        ⟨GenOutcome.noUsable (buildCandidates "m1" []) [] (some e),
         buildCandidates "m1" [], buildCandidates "m1" []⟩) := by
  have hall : ∀ n ∈ buildCandidates "m1" [],
      ∃ e, exBehavior n = Except.error e ∧ isTransientMsg e = true := by
    intro n hn
    have hb : buildCandidates "m1" [] = ["m1"] := by decide
    rw [hb] at hn
    rcases List.mem_singleton.mp hn with rfl
    exact ⟨"Err 404: model m1 Not Found", rfl, by decide⟩
  exact ⟨by decide, hall, generate_all_transient exBehavior "m1" [] (by decide) hall⟩

/-- C3: a candidate failing with an error matching none of the transient
markers makes `generate_text` re-raise that error immediately; no
candidate after it is tried. -/
theorem generate_nontransient_abort (behavior : String → Except String String)
    (model_name : String) (available pre post : List String) (c e : String)
    (hcands : buildCandidates model_name available = pre ++ c :: post)
    (hpre : ∀ n ∈ pre, ∃ e2, behavior n = Except.error e2 ∧ isTransientMsg e2 = true)
    (hc : behavior c = Except.error e)
    (hnt : isTransientMsg e = false) :
    (generate_text behavior model_name available).outcome = GenOutcome.raised e ∧
    (generate_text behavior model_name available).tried = pre ++ [c] ∧
    (generate_text behavior model_name available).calls = pre ++ [c] := by
  simp only [generate_text, invokeCandidates, hcands]
  obtain ⟨le2, hrun⟩ :=
    runCandidates_skip_transient behavior available pre hpre (c :: post) [] none
  rw [hrun]
  simp [runCandidates, hc, hnt]

theorem generate_nontransient_abort_witness :
    buildCandidates "m1" ["m3"] = ["m1"] ++ "m3" :: [] ∧
    (∀ n ∈ (["m1"] : List String),
      ∃ e, exBehavior n = Except.error e ∧ isTransientMsg e = true) ∧
    exBehavior "m3" = Except.error "permission denied" ∧
    isTransientMsg "permission denied" = false ∧
    (generate_text exBehavior "m1" ["m3"]).outcome =
      GenOutcome.raised "permission denied" ∧
    (generate_text exBehavior "m1" ["m3"]).tried = ["m1"] ++ ["m3"] ∧
    (generate_text exBehavior "m1" ["m3"]).calls = ["m1"] ++ ["m3"] := by
  have hpre : ∀ n ∈ (["m1"] : List String),
      ∃ e, exBehavior n = Except.error e ∧ isTransientMsg e = true := by
    intro n hn
    rcases List.mem_singleton.mp hn with rfl
    exact ⟨"Err 404: model m1 Not Found", rfl, by decide⟩
  have h := generate_nontransient_abort exBehavior "m1" ["m3"] ["m1"] []
    "m3" "permission denied" (by decide) hpre rfl (by decide)
  exact ⟨by decide, hpre, rfl, by decide, h.1, h.2.1, h.2.2⟩

/-- C4, counterexample to the claim as stated: with preferred id
"gemini-1.5-flash" and available set containing both "gemini-2.5-flash"
and "gemini-1.5-flash", both ids are in the static ranking and in the
available set, "gemini-2.5-flash" precedes "gemini-1.5-flash" in the
ranking, yet the built candidate list orders them the other way round —
preferred-id-first wins over the ranking order. -/
theorem candidate_rank_order_cex :
    "gemini-2.5-flash" ∈ (["gemini-2.5-flash", "gemini-1.5-flash"] : List String) ∧
    "gemini-1.5-flash" ∈ (["gemini-2.5-flash", "gemini-1.5-flash"] : List String) ∧
    "gemini-2.5-flash" ∈ pref_order ∧ "gemini-1.5-flash" ∈ pref_order ∧
    pref_order.indexOf "gemini-2.5-flash" < pref_order.indexOf "gemini-1.5-flash" ∧
    (buildCandidates "gemini-1.5-flash"
        ["gemini-2.5-flash", "gemini-1.5-flash"]).indexOf "gemini-1.5-flash" <
      (buildCandidates "gemini-1.5-flash"
        ["gemini-2.5-flash", "gemini-1.5-flash"]).indexOf "gemini-2.5-flash" := by
  decide

/-- C4, amended: the candidate list never contains a duplicate identifier,
starts with the preferred identifier (followed by its "-latest" variant
when eligible), continues with the statically ranked identifiers present
in the available set in ranking order — restricted to identifiers not
already contributed by the preferred id and its variant — and ends with
the remaining available identifiers in first-occurrence order; the spec's
scenario for preferred "x" and available ["gemini-1.5-flash"] holds. -/
theorem candidate_list_shape (m : String) (av : List String) :
    (buildCandidates m av).Nodup ∧
    (m ≠ "" → ∃ rest, buildCandidates m av = m :: rest) ∧
    ((m ≠ "" ∧ latestEligible m = true) →
      ∃ rest, buildCandidates m av = m :: (m ++ "-latest") :: rest) ∧
    (∃ ranked extra,
      buildCandidates m av = (initialCands m ++ ranked) ++ extra ∧
      ranked.Sublist pref_order ∧
      (∀ x, x ∈ ranked ↔ x ∈ pref_order ∧ x ∈ av ∧ x ∉ initialCands m) ∧
      extra.Sublist av ∧
      (∀ x, x ∈ extra ↔ x ∈ av ∧ x ∉ initialCands m ++ ranked)) ∧
    buildCandidates "x" ["gemini-1.5-flash"] = ["x", "gemini-1.5-flash"] := by
  obtain ⟨ranked, h1, hs1, hm1⟩ :=
    addIfNew_decomp (fun n => n ∈ av) pref_order (initialCands m)
  obtain ⟨extra, h2, hs2, hm2⟩ :=
    addIfNew_decomp (fun _ => True) av (initialCands m ++ ranked)
  have hb : buildCandidates m av = (initialCands m ++ ranked) ++ extra := by
    unfold buildCandidates
    rw [h1, h2]
  refine ⟨?_, ?_, ?_, ⟨ranked, extra, hb, hs1, ?_, hs2, ?_⟩, by decide⟩
  · unfold buildCandidates
    exact addIfNew_nodup _ av _
      (addIfNew_nodup _ pref_order _ (initialCands_nodup m))
  · intro hm0
    obtain ⟨t, ht⟩ := initialCands_head m hm0
    exact ⟨t ++ ranked ++ extra, by rw [hb, ht]; simp⟩
  · rintro ⟨hm0, hel⟩
    have ht : initialCands m = [m, m ++ "-latest"] := by
      unfold initialCands
      rw [if_neg hm0, if_pos hel]
    exact ⟨ranked ++ extra, by rw [hb, ht]; simp⟩
  · intro x
    exact hm1 x
  · intro x
    simpa using hm2 x

theorem candidate_list_shape_witness :
    (("gemini-1.5-flash" : String) ≠ "" ∧ latestEligible "gemini-1.5-flash" = true) ∧
    (∃ rest, buildCandidates "gemini-1.5-flash" ["a"] =
      "gemini-1.5-flash" :: ("gemini-1.5-flash" ++ "-latest") :: rest) :=
  ⟨⟨by decide, by decide⟩,
    (candidate_list_shape "gemini-1.5-flash" ["a"]).2.2.1 ⟨by decide, by decide⟩⟩

/-- C5: extracting blocks from the text consisting of exactly one fenced
block tagged "python" with body "print(1)" yields exactly that one block,
tag "python" and body verbatim. -/
theorem extract_single_python_block :
    _extract_code_blocks "```python\nprint(1)\n```" = [("python", "print(1)")] := by
  decide

/-- C6: on any non-empty block sequence, largest-block selection returns a
block of maximal body length that occurs earliest among the maximal ones
(every strictly earlier block is strictly shorter), independently of
order; in particular on bodies of lengths 5 and 50 in either order it
returns the 50-length block, and on a tie it returns the earlier block. -/
theorem largest_block_selected (b0 : Option String × String)
    (bs : List (Option String × String)) :
    (∃ b l1 l2, pickLargest (b0 :: bs) = some b ∧ b0 :: bs = l1 ++ b :: l2 ∧
      (∀ x ∈ l1, x.2.length < b.2.length) ∧
      (∀ x ∈ b0 :: bs, x.2.length ≤ b.2.length)) ∧
    pickLargest [(none, "abcde"),
        (none, "aaaaaaaaaaaaaaaaaaaaaaaaaaaaaaaaaaaaaaaaaaaaaaaaaa")] =
      some (none, "aaaaaaaaaaaaaaaaaaaaaaaaaaaaaaaaaaaaaaaaaaaaaaaaaa") ∧
    pickLargest [(none, "aaaaaaaaaaaaaaaaaaaaaaaaaaaaaaaaaaaaaaaaaaaaaaaaaa"),
        (none, "abcde")] =
      some (none, "aaaaaaaaaaaaaaaaaaaaaaaaaaaaaaaaaaaaaaaaaaaaaaaaaa") ∧
    pickLargest [(some "a", "xx"), (some "b", "yy")] = some (some "a", "xx") := by
  refine ⟨?_, by decide, by decide, by decide⟩
  obtain ⟨l1, l2, hdec, hlt, hle⟩ := foldMax_spec bs b0
  exact ⟨bs.foldl maxStep b0, l1, l2, rfl, hdec, hlt, hle⟩

/-- C7: numbered-line extraction always produces exactly four entries; on
four numbered lines it yields their stripped remainders, on two numbered
lines it pads with two placeholder entries, and non-matching lines are
kept as they are. -/
theorem test_lines_contract :
    (∀ out : String, (testLinesFromOutput out).length = 4) ∧
    testLinesFromOutput "1. a\n2. b\n3. c\n4. d" = ["a", "b", "c", "d"] ∧
    testLinesFromOutput "1. a\n2. b" =
      ["a", "b", "<bổ sung test case>", "<bổ sung test case>"] ∧
    testLinesFromOutput "alpha\n2. b\nc\nd\ne" = ["alpha", "b", "c", "d"] := by
  refine ⟨?_, by decide, by decide, by decide⟩
  intro out
  simp only [testLinesFromOutput]
  exact padFour_length _

/-- C8: the path guard of /promptify, /fixcode and /testify accepts any
absolute path that starts, as a string, with the working directory — so a
sibling directory sharing the prefix passes the guard and its file is
read, although it is not inside the working directory. -/
theorem path_guard_escape :
    readGuardPasses "/home/user/proj" "/home/user/project-secrets/key.py" true = true ∧
    insideWorkingDir "/home/user/proj" "/home/user/project-secrets/key.py" = false := by
  decide

/-- C9: when the model output contains no fenced block, the fixed-code
extraction degrades to the original input code paired with the language
guessed from that code, and never fails; the guess on a Python-looking
input is "python". -/
theorem fixcode_extraction_fallback (out code_text : String)
    (h : scanFences out.data.length out.data = []) :
    aiFixedExtract out code_text = (_guess_language_simple code_text, code_text) := by
  unfold aiFixedExtract
  rw [h]
  rfl

theorem fixcode_extraction_fallback_witness :
    scanFences ("hello there".data.length) ("hello there".data) = [] ∧
    aiFixedExtract "hello there" "def f():\n    return 1" =
      ("python", "def f():\n    return 1") := by
  refine ⟨by decide, ?_⟩
  have h := fixcode_extraction_fallback "hello there" "def f():\n    return 1" (by decide)
  rw [h]
  decide

/-- C10: with an empty preferred model identifier, the candidate list is
exactly the statically ranked identifiers present in the available list,
in ranking order, followed by the remaining available identifiers in
first-occurrence order; the empty string is never a candidate and never
attempted, for any availability list the backend can produce. -/
theorem empty_model_candidates (raw : List String) :
    (∃ extra,
      buildCandidates "" (availableOf raw) =
        pref_order.filter (fun n => decide (n ∈ availableOf raw)) ++ extra ∧
      extra.Sublist (availableOf raw) ∧
      (∀ x, x ∈ extra ↔ x ∈ availableOf raw ∧
        x ∉ pref_order.filter (fun n => decide (n ∈ availableOf raw)))) ∧
    "" ∉ buildCandidates "" (availableOf raw) ∧
    ∀ behavior : String → Except String String,
      "" ∉ (generate_text behavior "" (availableOf raw)).calls := by
  have hc0 : initialCands "" = [] := by simp [initialCands]
  have hpref := addIfNew_filter (fun n => n ∈ availableOf raw) pref_order []
    (by decide)
  have hfe : pref_order.filter
        (fun n => decide (n ∈ availableOf raw ∧ n ∉ ([] : List String))) =
      pref_order.filter (fun n => decide (n ∈ availableOf raw)) := by
    apply List.filter_congr
    intro x _
    simp
  rw [hfe, List.nil_append] at hpref
  obtain ⟨extra, h2, hs2, hm2⟩ := addIfNew_decomp (fun _ => True) (availableOf raw)
    (pref_order.filter (fun n => decide (n ∈ availableOf raw)))
  have hb : buildCandidates "" (availableOf raw) =
      pref_order.filter (fun n => decide (n ∈ availableOf raw)) ++ extra := by
    unfold buildCandidates
    rw [hc0, hpref, h2]
  have hnm : "" ∉ buildCandidates "" (availableOf raw) := by
    rw [hb]
    intro hmem
    rcases List.mem_append.mp hmem with hmem | hmem
    · have hp : ("" : String) ∈ pref_order := List.mem_of_mem_filter hmem
      revert hp
      decide
    · have hav : ("" : String) ∈ availableOf raw := ((hm2 "").mp hmem).1
      have hd := List.of_mem_filter hav
      simp at hd
  refine ⟨⟨extra, hb, hs2, ?_⟩, hnm, ?_⟩
  · intro x
    simpa using hm2 x
  · intro behavior hcall
    exact hnm (runCandidates_calls_sub behavior (availableOf raw)
      (buildCandidates "" (availableOf raw)) [] none hcall)

end MainChat
